import Mathlib

/-!
A shallow embedding of the column-width resolution engine of the `colfmt`
command-line formatter (source: `colfmt.go`), together with proofs about it.

Modelling conventions:
* Go `int` is modelled as `Int` (the program never relies on overflow).
* Go strings that carry field data are modelled as `List Char`; the Go
  length primitive `len` becomes `List.length` (the "native string-length
  unit" of the model).
* Go maps (`map[int]*ColumnSpec`) are modelled as association lists with
  distinct keys; iteration happens in list order, a deterministic stand-in
  for Go's unspecified map iteration order.
* Go runtime faults (out-of-range indexing, nil-pointer dereference) are
  modelled by `Option`: a `none` result marks a run that panics.
* The shrink loop of `rebalanceWidths` runs on explicit fuel
  `(consumedWidth - availableWidth).toNat`; since the Go loop decrements
  `consumedWidth` on every trip and its guard requires
  `consumedWidth > availableWidth`, this fuel can never be exhausted
  before the guard fails, so the fuelled loop computes exactly the Go
  loop.  The loop also returns the number of trips taken, used to state
  the iteration bound.
-/

/-- Column value type; Go `ColumnType` with `TypeString` the zero value. -/
inductive ColumnType where
  | TypeString : ColumnType
  | TypeAge : ColumnType
deriving DecidableEq, Repr

/-- Go `ColumnSpec`: minimum and maximum width (`-1` meaning no maximum)
and the value type.  The Go zero value is `⟨TypeString, 0, 0⟩`. -/
structure ColumnSpec where
  typ : ColumnType
  WidthMin : Int
  WidthMax : Int
deriving DecidableEq, Repr

/-- The Go zero value `ColumnSpec{}`. -/
def zeroSpec : ColumnSpec := ⟨ColumnType.TypeString, 0, 0⟩

/-- Go `(spec *ColumnSpec) HasFlexibleWidth`:
`spec.WidthMax < 0 || spec.WidthMax > spec.WidthMin`. -/
def ColumnSpec.HasFlexibleWidth (spec : ColumnSpec) : Bool :=
  spec.WidthMax < 0 || spec.WidthMin < spec.WidthMax

/-! Tokens are modelled as lists of characters (the data of a Go
string), so that every token operation is structural recursion the
kernel can evaluate. -/

/-- Split a character list at every character satisfying `p`, keeping
empty pieces: the skeleton of Go `strings.Split` (with a one-character
separator) and of `bufio.ScanWords`. -/
def splitBy (p : Char → Bool) : List Char → List (List Char)
  | [] => [[]]
  | c :: rest =>
    if p c then [] :: splitBy p rest
    else
      match splitBy p rest with
      | [] => [[c]]
      | t :: ts => (c :: t) :: ts

/-- Value of a list of decimal digits, most significant first. -/
def digitsVal (l : List Char) : Nat :=
  l.foldl (fun acc c => 10 * acc + (c.toNat - '0'.toNat)) 0

/-- Go `strconv.Atoi`: optional sign followed by at least one digit,
consuming the whole token.  (Go also rejects values outside the machine
range; the model keeps integers unbounded, which is faithful on every
input the program meets.) -/
def atoi (word : List Char) : Option Int :=
  match word with
  | [] => none
  | c :: rest =>
    let digits : List Char := if c = '-' ∨ c = '+' then rest else c :: rest
    let sign : Int := if c = '-' then -1 else 1
    if digits ≠ [] ∧ digits.all Char.isDigit then
      some (sign * (digitsVal digits : Int))
    else
      none

/-- Go `parseColumnWidth`: a `<digits>c` token gives its numeric value; a
bare `*` gives `-1`; anything else fails.  Note the order: the `"c"`
suffix branch is tried first and falls through to the `*` check when the
digits do not parse. -/
def parseColumnWidth (word : List Char) : Option Int :=
  match (if word.getLast? = some 'c' then atoi word.dropLast else none) with
  | some width => some width
  | none => if word = ['*'] then some (-1) else none

/-- Parser state for `ParseColumnSpecs`.  Go mutates `*ColumnSpec`
objects shared between the `specs` map and the `spec` cursor; the model
keeps all spec objects in `store` and lets `assigns` map column indices
to positions in `store`, with `cur` the position of the spec currently
being built. -/
structure ParserState where
  assigns : List (Nat × Nat)
  store : List ColumnSpec
  cur : Nat
  needNewSpec : Bool
deriving DecidableEq, Repr

/-- Map-style overwrite of key `i` in an association list. -/
def setKey (i : Nat) (v : Nat) (l : List (Nat × Nat)) : List (Nat × Nat) :=
  (i, v) :: l.filter (fun p => !(p.1 == i))

/-- Mutate the spec object currently under construction. -/
def ParserState.mutateCur (st : ParserState) (f : ColumnSpec → ColumnSpec) :
    ParserState :=
  { st with store := st.store.set st.cur (f (st.store.getD st.cur zeroSpec)) }

/-- One trip of the word loop in Go `ParseColumnSpecs`: allocate a fresh
spec if the previous word asked for one, strip one trailing `;`, then try
column number, exact width, width range and keywords in the source order.
`none` is the error return. -/
def parseStep (st : ParserState) (word : List Char) : Option ParserState :=
  let st := if st.needNewSpec then
      { st with store := st.store ++ [zeroSpec], cur := st.store.length,
                needNewSpec := false }
    else st
  let stripped := word.getLast? = some ';'
  let st := if stripped then { st with needNewSpec := true } else st
  let word := if stripped then word.dropLast else word
  match atoi word with
  | some n =>
    if n < 1 then none
    else some { st with assigns := setKey (n.toNat - 1) st.cur st.assigns }
  | none =>
  match parseColumnWidth word with
  | some width =>
    some (st.mutateCur fun spec => { spec with WidthMin := width, WidthMax := width })
  | none =>
  match splitBy (fun c => c = '-') word with
  | [lowerWord, upperWord] =>
    match parseColumnWidth lowerWord with
    | some lower =>
      match parseColumnWidth upperWord with
      | some upper =>
        some (st.mutateCur fun spec => { spec with WidthMin := lower, WidthMax := upper })
      | none =>
        if word = [';'] then some { st with needNewSpec := true }
        else if word = ['a', 'g', 'e'] then
          some (st.mutateCur fun spec => { spec with typ := ColumnType.TypeAge })
        else none
    | none =>
      if word = [';'] then some { st with needNewSpec := true }
      else if word = ['a', 'g', 'e'] then
        some (st.mutateCur fun spec => { spec with typ := ColumnType.TypeAge })
      else none
  | _ =>
    if word = [';'] then some { st with needNewSpec := true }
    else if word = ['a', 'g', 'e'] then
      some (st.mutateCur fun spec => { spec with typ := ColumnType.TypeAge })
    else none

/-- The initial parser state: one zero-valued spec under construction. -/
def initParserState : ParserState := ⟨[], [zeroSpec], 0, false⟩

/-- `bufio.ScanWords`: split the description on whitespace, dropping
empty pieces. -/
def tokenizeSpec (s : String) : List (List Char) :=
  (splitBy Char.isWhitespace s.toList).filter (fun w => w ≠ [])

/-- Go `ParseColumnSpecs`: run the word loop and read the final map off
the parser state, resolving each column's spec object through the store
(shared objects observe all mutations, as Go's pointers do). -/
def ParseColumnSpecs (specDescription : String) :
    Option (List (Nat × ColumnSpec)) :=
  match (tokenizeSpec specDescription).foldlM parseStep initParserState with
  | none => none
  | some st => some (st.assigns.map fun p => (p.1, st.store.getD p.2 zeroSpec))

/-! ## Width resolver (Main, lines 110-136) -/

/-- The inner loop of the natural-width scan: for each field of a row,
raise the recorded width when the field is longer.  Go indexes `widths[j]`
for `j` below the row length, which equals the widths length when
reached. -/
def bumpWidths : List Int → List (List Char) → List Int
  | w :: ws, s :: ss =>
    (if (s.length : Int) > w then (s.length : Int) else w) :: bumpWidths ws ss
  | ws, [] => ws
  | [], _ => []

/-- The row loop of the natural-width scan: die (`none`) on the first row
whose field count differs from the first row's (`n`). -/
def widthsLoop (n : Nat) : List Int → List (List (List Char)) → Option (List Int)
  | ws, [] => some ws
  | ws, row :: rest =>
    if row.length = n then widthsLoop n (bumpWidths ws row) rest else none

/-- Natural widths of a non-empty dataset: per column, the maximum
observed field length; `none` on a field-count mismatch. -/
def naturalWidths (rows : List (List (List Char))) : Option (List Int) :=
  match rows with
  | [] => none
  | first :: _ =>
    widthsLoop first.length (List.replicate first.length (0 : Int)) rows

/-- The clamp applied to one column (Main, lines 130-135).  Both `if`s
test the pre-clamp natural width `w`, exactly as the Go loop variable
`width` does. -/
def clampWidth (spec : ColumnSpec) (w : Int) : Int :=
  let raised := if w < spec.WidthMin then spec.WidthMin else w
  if spec.WidthMax ≥ 0 ∧ w > spec.WidthMax then spec.WidthMax else raised

/-- Association-list lookup, Go's `specs[i]` (`ok` is `isSome`). -/
def lookupIdx (i : Nat) : List (Nat × ColumnSpec) → Option ColumnSpec
  | [] => none
  | p :: rest => if p.1 = i then some p.2 else lookupIdx i rest

/-- The clamp pass over the widths vector, carrying the column index. -/
def clampAux (specs : List (Nat × ColumnSpec)) : Nat → List Int → List Int
  | _, [] => []
  | i, w :: ws =>
    (match lookupIdx i specs with
     | none => w
     | some spec => clampWidth spec w) :: clampAux specs (i + 1) ws

/-- Adjust column widths based on specs (Main, lines 123-136). -/
def clampWidths (widths : List Int) (specs : List (Nat × ColumnSpec)) : List Int :=
  clampAux specs 0 widths

/-- The width resolver: natural widths followed by the clamp pass.  The
spec document calls this composition `resolveWidths`. -/
def resolveWidths (rows : List (List (List Char)))
    (specs : List (Nat × ColumnSpec)) : Option (List Int) :=
  match naturalWidths rows with
  | none => none
  | some nw => some (clampWidths nw specs)

/-! ## Rebalancer (`rebalanceWidths`, lines 339-382) -/

/-- Consumed horizontal space: all widths plus a 2-column gutter between
adjacent columns (lines 344-350). -/
def consumedWidth (widths : List Int) : Int :=
  widths.sum + 2 * ((widths.length - 1 : Nat) : Int)

/-- Whether `rebalanceWidths` puts a spec entry into `adjustable`
(line 355): flexible and current width above the minimum.  The width
access only happens when the spec is flexible (Go's `&&`
short-circuits). -/
def isAdjustable (widths : List Int) (p : Nat × ColumnSpec) : Bool :=
  p.2.HasFlexibleWidth &&
    match widths[p.1]? with
    | none => false
    | some w => p.2.WidthMin < w

/-- Build the `adjustable` map (lines 352-358).  A flexible spec at an
index outside the widths vector is Go's out-of-range panic: `none`. -/
def mkAdjustable (widths : List Int) :
    List (Nat × ColumnSpec) → Option (List (Nat × ColumnSpec))
  | [] => some []
  | p :: rest =>
    if p.2.HasFlexibleWidth then
      match widths[p.1]? with
      | none => none
      | some w =>
        match mkAdjustable widths rest with
        | none => none
        | some adj =>
          some (if p.2.WidthMin < w then p :: adj else adj)
    else mkAdjustable widths rest

/-- Go `delete(adjustable, i)`. -/
def eraseKey (i : Nat) : List (Nat × ColumnSpec) → List (Nat × ColumnSpec)
  | [] => []
  | p :: rest => if p.1 = i then eraseKey i rest else p :: eraseKey i rest

/-- Find the widest adjustable column (lines 363-371), accumulating
`widestIndex`/`widestWidth` from `(0, 0)`; reading a width out of range
is a panic (`none`). -/
def findWidest (widths : List Int) :
    List (Nat × ColumnSpec) → Nat → Int → Option (Nat × Int)
  | [], wi, ww => some (wi, ww)
  | p :: rest, wi, ww =>
    match widths[p.1]? with
    | none => none
    | some w =>
      if w > ww then findWidest widths rest p.1 w
      else findWidest widths rest wi ww

/-- One trip of the shrink loop body (lines 363-378): pick the widest
adjustable column, decrement its width, and drop it from `adjustable`
once it reaches its minimum.  The map read `adjustable[widestIndex]`
yields a nil pointer when `widestIndex` is not a key (possible, since
`widestIndex` stays `0` when no adjustable width beats `0`), and the
subsequent `.WidthMin` dereference is a panic: `none`. -/
def shrinkStep (widths : List Int) (adj : List (Nat × ColumnSpec)) :
    Option (List Int × List (Nat × ColumnSpec)) :=
  match findWidest widths adj 0 0 with
  | none => none
  | some (wi, _) =>
    match widths[wi]? with
    | none => none
    | some w =>
      match lookupIdx wi adj with
      | none => none
      | some spec =>
        some (widths.set wi (w - 1),
              if w - 1 ≤ spec.WidthMin then eraseKey wi adj else adj)

/-- The shrink loop (lines 362-379) on explicit fuel.  Every trip of the
Go loop decrements `consumed` by exactly 1 and the guard requires
`consumed > avail`, so with fuel `(consumed - avail).toNat` (supplied by
`rebalanceWidths`) fuel exhaustion coincides with the guard failing.
The second component of the result counts loop trips. -/
def shrinkLoop (avail : Int) :
    Nat → List Int → List (Nat × ColumnSpec) → Int → Option (List Int × Nat)
  | 0, widths, _, _ => some (widths, 0)
  | fuel + 1, widths, adj, consumed =>
    if consumed > avail ∧ adj ≠ [] then
      match shrinkStep widths adj with
      | none => none
      | some (widths', adj') =>
        match shrinkLoop avail fuel widths' adj' (consumed - 1) with
        | none => none
        | some (out, n) => some (out, n + 1)
    else some (widths, 0)

/-- Go `rebalanceWidths` with the available width (the global
`terminalWidth`) passed explicitly.  `none` models a panicking run. -/
def rebalanceWidths (widths : List Int) (specs : List (Nat × ColumnSpec))
    (availableWidth : Int) : Option (List Int) :=
  let consumed := consumedWidth widths
  match mkAdjustable widths specs with
  | none => none
  | some adj =>
    match shrinkLoop availableWidth (consumed - availableWidth).toNat
        widths adj consumed with
    | none => none
    | some (out, _) => some out

/-! ## Formatter and pipeline (Main, lines 106-165) -/

/-- One output cell (lines 155-160): truncate a too-long field to the
column width, then left-justify via `%-<width>s` (pad on the right with
spaces).  Models the Go formatting for the non-negative widths the
program produces. -/
def formatCell (w : Int) (field : List Char) : List Char :=
  let f := if (field.length : Int) > w then field.take w.toNat else field
  f ++ List.replicate (w.toNat - f.length) ' '

/-- One output line (lines 148-162): zero-width columns are skipped with
their gutter; the rest are truncated/padded and joined with the
two-space gutter. -/
def formatRow (widths : List Int) (row : List (List Char)) : List Char :=
  List.intercalate [' ', ' ']
    ((widths.zip row).filterMap fun p =>
      if p.1 = 0 then none else some (formatCell p.1 p.2))

/-- The pure pipeline of `Main` from buffered rows to output lines:
empty input produces nothing; a field-count mismatch dies before any
output (`none`); otherwise natural widths are clamped, rebalanced, and
each row is formatted. -/
def colfmtRun (rows : List (List (List Char)))
    (specs : List (Nat × ColumnSpec)) (termWidth : Int) :
    Option (List (List Char)) :=
  if rows = [] then some []
  else
    match naturalWidths rows with
    | none => none
    | some nw =>
      match rebalanceWidths (clampWidths nw specs) specs termWidth with
      | none => none
      | some ws => some (rows.map (formatRow ws))

/-- Total slack of the adjustable columns: the sum of
`width - widthMin` over the entries of `adj`, the quantity the spec
names as the iteration bound of the shrink loop. -/
def slackSum (widths : List Int) (adj : List (Nat × ColumnSpec)) : Int :=
  (adj.map (fun p => widths.getD p.1 0 - p.2.WidthMin)).sum

/-! ## Helper lemmas: the clamp pass -/

theorem clampWidth_formula (spec : ColumnSpec) (w : Int) :
    clampWidth spec w =
      if 0 ≤ spec.WidthMax ∧ spec.WidthMax < w then spec.WidthMax
      else max w spec.WidthMin := by
  simp only [clampWidth, max_def]
  split_ifs <;> omega

theorem clampAux_length (specs : List (Nat × ColumnSpec)) :
    ∀ (ws : List Int) (k : Nat), (clampAux specs k ws).length = ws.length := by
  intro ws
  induction ws with
  | nil => intro k; simp [clampAux]
  | cons w ws ih => intro k; simp [clampAux, ih]

theorem clampAux_getElem? (specs : List (Nat × ColumnSpec)) :
    ∀ (ws : List Int) (k j : Nat),
      (clampAux specs k ws)[j]? = (ws[j]?).map (fun w =>
        match lookupIdx (k + j) specs with
        | none => w
        | some spec => clampWidth spec w) := by
  intro ws
  induction ws with
  | nil => intro k j; simp [clampAux]
  | cons w ws ih =>
    intro k j
    cases j with
    | zero => simp [clampAux]
    | succ j =>
      have h : k + 1 + j = k + (j + 1) := by omega
      have hih := ih (k + 1) j
      rw [h] at hih
      simpa [clampAux] using hih

theorem clampWidths_getElem? (widths : List Int)
    (specs : List (Nat × ColumnSpec)) (i : Nat) :
    (clampWidths widths specs)[i]? = (widths[i]?).map (fun w =>
      match lookupIdx i specs with
      | none => w
      | some spec => clampWidth spec w) := by
  have h := clampAux_getElem? specs widths 0 i
  rwa [Nat.zero_add] at h

/-! ## Helper lemmas: the natural-width scan -/

theorem bumpWidths_length :
    ∀ (ws : List Int) (row : List (List Char)),
      (bumpWidths ws row).length = ws.length := by
  intro ws
  induction ws with
  | nil => intro row; cases row <;> simp [bumpWidths]
  | cons w ws ih =>
    intro row
    cases row with
    | nil => simp [bumpWidths]
    | cons s ss => simp [bumpWidths, ih]

theorem bumpWidths_getElem? :
    ∀ (ws : List Int) (row : List (List Char)) (j : Nat),
      (bumpWidths ws row)[j]? = (ws[j]?).map (fun w =>
        match row[j]? with
        | none => w
        | some s => max w (s.length : Int)) := by
  intro ws
  induction ws with
  | nil => intro row j; cases row <;> simp [bumpWidths]
  | cons w ws ih =>
    intro row j
    cases row with
    | nil => simp [bumpWidths]
    | cons s ss =>
      cases j with
      | zero =>
        simp only [bumpWidths, List.getElem?_cons_zero, Option.map_some']
        simp only [Option.some.injEq, max_def]
        split_ifs <;> omega
      | succ j => simp [bumpWidths, ih]

theorem widthsLoop_length (n : Nat) :
    ∀ (rows : List (List (List Char))) (ws out : List Int),
      widthsLoop n ws rows = some out → out.length = ws.length := by
  intro rows
  induction rows with
  | nil =>
    intro ws out h
    simp [widthsLoop] at h
    rw [h]
  | cons row rest ih =>
    intro ws out h
    simp only [widthsLoop] at h
    split at h
    · have := ih (bumpWidths ws row) out h
      rwa [bumpWidths_length] at this
    · exact absurd h (by simp)

theorem widthsLoop_some (n : Nat) :
    ∀ (rows : List (List (List Char))) (ws : List Int),
      (∀ row ∈ rows, row.length = n) →
      ∃ out, widthsLoop n ws rows = some out := by
  intro rows
  induction rows with
  | nil => intro ws _; exact ⟨ws, rfl⟩
  | cons row rest ih =>
    intro ws h
    obtain ⟨out, hout⟩ := ih (bumpWidths ws row) (fun r hr => h r (by simp [hr]))
    refine ⟨out, ?_⟩
    simp only [widthsLoop, h row (by simp), if_true, hout]

theorem widthsLoop_mono (n : Nat) :
    ∀ (rows : List (List (List Char))) (ws out : List Int),
      widthsLoop n ws rows = some out →
      ∀ (j : Nat) (w v : Int), ws[j]? = some w → out[j]? = some v → w ≤ v := by
  intro rows
  induction rows with
  | nil =>
    intro ws out h j w v hw hv
    simp [widthsLoop] at h
    rw [h] at hw
    rw [hw] at hv
    simp only [Option.some.injEq] at hv
    omega
  | cons row rest ih =>
    intro ws out h j w v hw hv
    simp only [widthsLoop] at h
    split at h
    · have hb : ∃ w', (bumpWidths ws row)[j]? = some w' ∧ w ≤ w' := by
        rw [bumpWidths_getElem?, hw]
        cases hrow : row[j]? with
        | none => exact ⟨w, by simp, le_refl w⟩
        | some s => exact ⟨max w (s.length : Int), by simp, le_max_left _ _⟩
      obtain ⟨w', hw', hle⟩ := hb
      exact le_trans hle (ih (bumpWidths ws row) out h j w' v hw' hv)
    · exact absurd h (by simp)

theorem widthsLoop_covers (n : Nat) :
    ∀ (rows : List (List (List Char))) (ws out : List Int),
      widthsLoop n ws rows = some out →
      ∀ row ∈ rows, ∀ (j : Nat) (s : List Char), row[j]? = some s →
        j < ws.length →
        ∃ v, out[j]? = some v ∧ (s.length : Int) ≤ v := by
  intro rows
  induction rows with
  | nil => intro ws out _ row hrow; exact absurd hrow (by simp)
  | cons row rest ih =>
    intro ws out h r hr j s hs hj
    simp only [widthsLoop] at h
    split at h
    · rcases List.mem_cons.1 hr with rfl | hr'
      · have hwj : ws[j]? = some ws[j] := List.getElem?_eq_getElem hj
        have hb : (bumpWidths ws r)[j]? = some (max ws[j] (s.length : Int)) := by
          rw [bumpWidths_getElem?, hwj, hs]
          rfl
        have hjout : j < out.length := by
          rw [widthsLoop_length n rest _ _ h, bumpWidths_length]
          exact hj
        have hvout : out[j]? = some out[j] := List.getElem?_eq_getElem hjout
        refine ⟨out[j], hvout, ?_⟩
        have := widthsLoop_mono n rest _ _ h j _ _ hb hvout
        exact le_trans (le_max_right _ _) this
      · exact ih (bumpWidths ws row) out h r hr' j s hs
          (by rw [bumpWidths_length]; exact hj)
    · exact absurd h (by simp)

theorem widthsLoop_mismatch (n : Nat) :
    ∀ (rows : List (List (List Char))) (ws : List Int)
      (row : List (List Char)), row ∈ rows → row.length ≠ n →
      widthsLoop n ws rows = none := by
  intro rows
  induction rows with
  | nil => intro ws row hmem; exact absurd hmem (by simp)
  | cons r rest ih =>
    intro ws row hmem hne
    rcases List.mem_cons.1 hmem with rfl | hr'
    · simp [widthsLoop, hne]
    · simp only [widthsLoop]
      split
      · exact ih _ row hr' hne
      · rfl

/-! ## Claim theorems: resolver, pipeline, formatter, parser -/

/-- **C3**: for a non-empty dataset with a uniform field count, width
resolution succeeds, its output length is the field count, and each
column's resolved width is at least every observed field length in that
column — except that a spec with `widthMax ≥ 0` below the column's
natural width forces the resolved width to equal `widthMax`. -/
theorem resolveWidths_correct (specs : List (Nat × ColumnSpec))
    (first : List (List Char)) (rest : List (List (List Char)))
    (huni : ∀ row ∈ first :: rest, row.length = first.length) :
    ∃ nw ws, naturalWidths (first :: rest) = some nw ∧
      resolveWidths (first :: rest) specs = some ws ∧
      ws.length = first.length ∧
      ∀ (i : Nat) (v : Int), ws[i]? = some v →
        (∀ (spec : ColumnSpec) (N : Int), lookupIdx i specs = some spec →
           nw[i]? = some N → 0 ≤ spec.WidthMax → spec.WidthMax < N →
           v = spec.WidthMax) ∧
        ((∀ (spec : ColumnSpec) (N : Int), lookupIdx i specs = some spec →
            nw[i]? = some N → ¬(0 ≤ spec.WidthMax ∧ spec.WidthMax < N)) →
          ∀ row ∈ first :: rest, ∀ s : List Char, row[i]? = some s →
            (s.length : Int) ≤ v) := by
  obtain ⟨nw, hnw⟩ := widthsLoop_some first.length (first :: rest)
    (List.replicate first.length (0 : Int)) huni
  have hnat : naturalWidths (first :: rest) = some nw := by
    simpa [naturalWidths] using hnw
  have hnwlen : nw.length = first.length := by
    have := widthsLoop_length first.length (first :: rest) _ nw hnw
    simpa using this
  refine ⟨nw, clampWidths nw specs, hnat, by simp [resolveWidths, hnat], ?_, ?_⟩
  · simpa [clampWidths, clampAux_length] using hnwlen
  · intro i v hv
    have hclamp := clampWidths_getElem? nw specs i
    rw [hv] at hclamp
    have hiw : i < nw.length := by
      by_contra hge
      rw [List.getElem?_eq_none (by omega)] at hclamp
      exact Option.noConfusion hclamp
    have hN : nw[i]? = some nw[i] := List.getElem?_eq_getElem hiw
    rw [hN] at hclamp
    simp only [Option.map_some', Option.some.injEq] at hclamp
    constructor
    · intro spec N hspec hN' hmax hlt
      rw [hN] at hN'
      have hNN : N = nw[i] := by
        simpa using hN'.symm
      subst hNN
      have hclamp2 : v = clampWidth spec nw[i] := by
        rw [hspec] at hclamp; exact hclamp
      rw [clampWidth_formula, if_pos ⟨hmax, hlt⟩] at hclamp2
      omega
    · intro hno row hrow s hs
      have hcov := widthsLoop_covers first.length (first :: rest) _ nw hnw
        row hrow i s hs (by simp only [List.length_replicate]; omega)
      obtain ⟨N, hNe, hsle⟩ := hcov
      rw [hN] at hNe
      have hNN : N = nw[i] := by simpa using hNe.symm
      subst hNN
      cases hspec : lookupIdx i specs with
      | none =>
        have hclamp2 : v = nw[i] := by
          rw [hspec] at hclamp; exact hclamp
        omega
      | some spec =>
        have hclamp2 : v = clampWidth spec nw[i] := by
          rw [hspec] at hclamp; exact hclamp
        rw [clampWidth_formula, if_neg (hno spec nw[i] hspec hN)] at hclamp2
        have : nw[i] ≤ v := by rw [hclamp2]; exact le_max_left _ _
        omega

/-- Witness for C3 at a concrete dataset. -/
theorem resolveWidths_correct_witness :
    ∃ nw ws, naturalWidths [[['a', 'b']], [['c']]] = some nw ∧
      resolveWidths [[['a', 'b']], [['c']]] [] = some ws ∧
      ws.length = 1 ∧
      ∀ (i : Nat) (v : Int), ws[i]? = some v →
        (∀ (spec : ColumnSpec) (N : Int), lookupIdx i [] = some spec →
           nw[i]? = some N → 0 ≤ spec.WidthMax → spec.WidthMax < N →
           v = spec.WidthMax) ∧
        ((∀ (spec : ColumnSpec) (N : Int), lookupIdx i [] = some spec →
            nw[i]? = some N → ¬(0 ≤ spec.WidthMax ∧ spec.WidthMax < N)) →
          ∀ row ∈ [[['a', 'b']], [['c']]], ∀ s : List Char, row[i]? = some s →
            (s.length : Int) ≤ v) :=
  resolveWidths_correct [] [['a', 'b']] [[['c']]] (by decide)

/-- **C7**: two rows with different field counts make the whole run die
with no formatted output: the pipeline result is `none`. -/
theorem mismatched_rows_no_output (rows : List (List (List Char)))
    (specs : List (Nat × ColumnSpec)) (termWidth : Int)
    (r₁ r₂ : List (List Char)) (h₁ : r₁ ∈ rows) (h₂ : r₂ ∈ rows)
    (hne : r₁.length ≠ r₂.length) :
    colfmtRun rows specs termWidth = none := by
  have hrows : rows ≠ [] := by rintro rfl; simp at h₁
  obtain ⟨first, rest, rfl⟩ := List.exists_cons_of_ne_nil hrows
  have hbad : ∃ r ∈ first :: rest, r.length ≠ first.length := by
    by_cases h : r₁.length = first.length
    · exact ⟨r₂, h₂, by omega⟩
    · exact ⟨r₁, h₁, h⟩
  obtain ⟨r, hr, hrne⟩ := hbad
  have hnat : naturalWidths (first :: rest) = none := by
    simp only [naturalWidths]
    exact widthsLoop_mismatch _ _ _ r hr hrne
  simp [colfmtRun, hnat]

/-- Witness for C7 at a concrete mismatched dataset. -/
theorem mismatched_rows_no_output_witness :
    colfmtRun [[['a']], [['b'], ['c']]] [] 80 = none :=
  mismatched_rows_no_output _ [] 80 [['a']] [['b'], ['c']]
    (by decide) (by decide) (by decide)

/-- **C8**: formatter round trip.  For a field no longer than a positive
final width, the cell is the field right-padded with spaces, the padding
amount is recoverable (taking the field's length back off the cell gives
the field), and the cell is exactly `width` wide; for a longer field the
cell is exactly the first `width` units, with no padding appended. -/
theorem formatter_round_trip (w : Int) (field : List Char) (hw : 0 < w) :
    ((field.length : Int) ≤ w →
      formatCell w field = field ++ List.replicate (w.toNat - field.length) ' ' ∧
      (formatCell w field).take field.length = field ∧
      (formatCell w field).length = w.toNat) ∧
    (w < (field.length : Int) →
      formatCell w field = field.take w.toNat ∧
      (formatCell w field).length = w.toNat) := by
  constructor
  · intro hle
    have hnot : ¬((field.length : Int) > w) := by omega
    have heq : formatCell w field =
        field ++ List.replicate (w.toNat - field.length) ' ' := by
      simp [formatCell, hnot]
    refine ⟨heq, ?_, ?_⟩
    · rw [heq]
      exact List.take_left field _
    · rw [heq]
      simp only [List.length_append, List.length_replicate]
      omega
  · intro hgt
    have hcond : (field.length : Int) > w := hgt
    have hlen : (field.take w.toNat).length = w.toNat := by
      rw [List.length_take]
      omega
    constructor
    · simp only [formatCell, if_pos hcond, hlen]
      simp
    · simp only [formatCell, if_pos hcond, hlen]
      simp [hlen]

/-- Witness for C8 at a concrete field and width. -/
theorem formatter_round_trip_witness :
    (((['a', 'b'] : List Char).length : Int) ≤ 3 →
      formatCell 3 ['a', 'b'] =
        ['a', 'b'] ++ List.replicate ((3 : Int).toNat - 2) ' ' ∧
      (formatCell 3 ['a', 'b']).take 2 = ['a', 'b'] ∧
      (formatCell 3 ['a', 'b']).length = (3 : Int).toNat) ∧
    ((3 : Int) < (['a', 'b'] : List Char).length →
      formatCell 3 ['a', 'b'] = ['a', 'b'].take (3 : Int).toNat ∧
      (formatCell 3 ['a', 'b']).length = (3 : Int).toNat) :=
  formatter_round_trip 3 ['a', 'b'] (by decide)

/-- **C2 counterexample**: parsing a bare `*` does not leave `widthMin`
at its prior value (here the default 0): `"1 *"` yields a spec whose
`widthMin` is `-1`, which is neither the prior value nor
non-negative. -/
theorem star_token_counterexample :
    ParseColumnSpecs "1 *" =
      some [(0, ⟨ColumnType.TypeString, -1, -1⟩)] ∧
    ((-1 : Int) ≠ 0 ∧ ¬(0 ≤ (-1 : Int))) :=
  ⟨by decide, by decide⟩

/-- **C2 amended**: a bare `*` token is caught by the exact-width branch
(because `parseColumnWidth "*"` succeeds with `-1`), so it sets the
current spec's `widthMin` *and* `widthMax` to `-1`; `widthMin` is not
left at its prior value. -/
theorem star_token_sets_min_and_max (st : ParserState)
    (h : st.needNewSpec = false) :
    parseStep st ['*'] = some (st.mutateCur fun spec =>
      { spec with WidthMin := -1, WidthMax := -1 }) := by
  obtain ⟨a, s, c, nn⟩ := st
  cases nn with
  | false => rfl
  | true => exact Bool.noConfusion h

/-- Witness for the amended C2 at the initial parser state. -/
theorem star_token_sets_min_and_max_witness :
    parseStep initParserState ['*'] = some (initParserState.mutateCur fun spec =>
      { spec with WidthMin := -1, WidthMax := -1 }) :=
  star_token_sets_min_and_max initParserState rfl

/-- **C10**: the clamp pass tests both bounds against the pre-clamp
natural width, so a specced column resolves to `widthMax` when
`widthMax ≥ 0` is below the natural width and to `max natural widthMin`
otherwise; the parser accepts the conflicting range `9c-4c`
(`widthMin 9 > widthMax 4`), under which a column of natural width 3
resolves to 9 (above `widthMax`) while natural width 7 resolves to 4
(below `widthMin`). -/
theorem clamp_pass_preclamp_semantics :
    (∀ (widths : List Int) (specs : List (Nat × ColumnSpec)) (i : Nat)
       (spec : ColumnSpec) (w : Int),
       lookupIdx i specs = some spec → widths[i]? = some w →
       (clampWidths widths specs)[i]? =
         some (if 0 ≤ spec.WidthMax ∧ spec.WidthMax < w then spec.WidthMax
               else max w spec.WidthMin)) ∧
    ParseColumnSpecs "1 9c-4c" =
      some [(0, ⟨ColumnType.TypeString, 9, 4⟩)] ∧
    clampWidths [3] [(0, ⟨ColumnType.TypeString, 9, 4⟩)] = [9] ∧
    clampWidths [7] [(0, ⟨ColumnType.TypeString, 9, 4⟩)] = [4] := by
  refine ⟨?_, by decide, by decide, by decide⟩
  intro widths specs i spec w hspec hw
  rw [clampWidths_getElem?, hw]
  simp only [Option.map_some', hspec]
  rw [clampWidth_formula]

/-- Witness for C10's general clamp formula at a concrete column. -/
theorem clamp_pass_preclamp_semantics_witness :
    (clampWidths [3] [(0, (⟨ColumnType.TypeString, 9, 4⟩ : ColumnSpec))])[0]? =
      some (if 0 ≤ (4 : Int) ∧ (4 : Int) < 3 then 4 else max 3 9) :=
  clamp_pass_preclamp_semantics.1 [3] _ 0 ⟨ColumnType.TypeString, 9, 4⟩ 3 rfl rfl

/-! ## Helper lemmas: association lists and list updates -/

theorem lookupIdx_mem {i : Nat} {s : ColumnSpec} :
    ∀ {l : List (Nat × ColumnSpec)}, lookupIdx i l = some s → (i, s) ∈ l := by
  intro l
  induction l with
  | nil => intro h; exact Option.noConfusion h
  | cons p rest ih =>
    intro h
    simp only [lookupIdx] at h
    split at h
    · rename_i hpi
      simp only [Option.some.injEq] at h
      exact List.mem_cons.2 (Or.inl (by rw [← hpi, ← h]))
    · exact List.mem_cons_of_mem p (ih h)

theorem lookupIdx_eq_none {i : Nat} :
    ∀ {l : List (Nat × ColumnSpec)},
      lookupIdx i l = none ↔ i ∉ l.map Prod.fst := by
  intro l
  induction l with
  | nil => simp [lookupIdx]
  | cons p rest ih =>
    simp only [lookupIdx, List.map_cons, List.mem_cons]
    split
    · rename_i hpi
      simp [hpi]
    · rename_i hpi
      simp only [ih]
      constructor
      · intro h hmem
        rcases hmem with h1 | h2
        · exact hpi h1.symm
        · exact h h2
      · intro h hmem
        exact h (Or.inr hmem)

theorem nodup_key_unique {l : List (Nat × ColumnSpec)}
    (hk : (l.map Prod.fst).Nodup) {i : Nat} {a b : ColumnSpec}
    (ha : (i, a) ∈ l) (hb : (i, b) ∈ l) : a = b := by
  induction l with
  | nil => exact absurd ha (by simp)
  | cons p rest ih =>
    simp only [List.map_cons, List.nodup_cons] at hk
    rcases List.mem_cons.1 ha with rfl | ha'
    · rcases List.mem_cons.1 hb with hb0 | hb'
      · exact (congrArg Prod.snd hb0.symm)
      · exact absurd (List.mem_map_of_mem Prod.fst hb') (by simpa using hk.1)
    · rcases List.mem_cons.1 hb with rfl | hb'
      · exact absurd (List.mem_map_of_mem Prod.fst ha') (by simpa using hk.1)
      · exact ih hk.2 ha' hb'

theorem lookupIdx_of_mem {l : List (Nat × ColumnSpec)}
    (hk : (l.map Prod.fst).Nodup) {i : Nat} {s : ColumnSpec}
    (hmem : (i, s) ∈ l) : lookupIdx i l = some s := by
  cases hlook : lookupIdx i l with
  | none =>
    rw [lookupIdx_eq_none] at hlook
    exact absurd (List.mem_map_of_mem Prod.fst hmem) hlook
  | some t =>
    have := nodup_key_unique hk (lookupIdx_mem hlook) hmem
    rw [this]

theorem mem_eraseKey {i : Nat} {q : Nat × ColumnSpec} :
    ∀ {l : List (Nat × ColumnSpec)},
      q ∈ eraseKey i l ↔ q ∈ l ∧ q.1 ≠ i := by
  intro l
  induction l with
  | nil => simp [eraseKey]
  | cons p rest ih =>
    simp only [eraseKey]
    split
    · rename_i hpi
      rw [ih]
      simp only [List.mem_cons]
      constructor
      · rintro ⟨hmem, hne⟩; exact ⟨Or.inr hmem, hne⟩
      · rintro ⟨hmem | hmem, hne⟩
        · exact absurd (hpi ▸ congrArg Prod.fst hmem) hne
        · exact ⟨hmem, hne⟩
    · rename_i hpi
      simp only [List.mem_cons, ih]
      constructor
      · rintro (rfl | ⟨hmem, hne⟩)
        · exact ⟨Or.inl rfl, hpi⟩
        · exact ⟨Or.inr hmem, hne⟩
      · rintro ⟨rfl | hmem, hne⟩
        · exact Or.inl rfl
        · exact Or.inr ⟨hmem, hne⟩

theorem eraseKey_sublist (i : Nat) :
    ∀ (l : List (Nat × ColumnSpec)), (eraseKey i l).Sublist l := by
  intro l
  induction l with
  | nil => simp [eraseKey]
  | cons p rest ih =>
    simp only [eraseKey]
    split
    · exact ih.cons p
    · exact ih.cons₂ p

theorem eraseKey_keysNodup {i : Nat} {l : List (Nat × ColumnSpec)}
    (hk : (l.map Prod.fst).Nodup) :
    ((eraseKey i l).map Prod.fst).Nodup :=
  hk.sublist ((eraseKey_sublist i l).map Prod.fst)

theorem lookupIdx_eraseKey_self {i : Nat} {l : List (Nat × ColumnSpec)} :
    lookupIdx i (eraseKey i l) = none := by
  rw [lookupIdx_eq_none]
  intro hmem
  obtain ⟨q, hq, hq1⟩ := List.mem_map.1 hmem
  exact absurd hq1 (mem_eraseKey.1 hq).2

theorem lookupIdx_eraseKey_ne {i j : Nat} (hne : j ≠ i) :
    ∀ {l : List (Nat × ColumnSpec)},
      lookupIdx j (eraseKey i l) = lookupIdx j l := by
  intro l
  induction l with
  | nil => simp [eraseKey]
  | cons p rest ih =>
    simp only [eraseKey]
    split
    · rename_i hpi
      rw [ih]
      have hnj : ¬(p.1 = j) := by rw [hpi]; exact fun h => hne h.symm
      simp only [lookupIdx, if_neg hnj]
    · simp only [lookupIdx]
      split
      · rfl
      · exact ih

theorem eraseKey_of_not_key {i : Nat} :
    ∀ {l : List (Nat × ColumnSpec)}, i ∉ l.map Prod.fst → eraseKey i l = l := by
  intro l
  induction l with
  | nil => intro _; rfl
  | cons p rest ih =>
    intro h
    simp only [List.map_cons, List.mem_cons] at h
    push_neg at h
    have hne : ¬(p.1 = i) := fun hp => h.1 hp.symm
    simp only [eraseKey, if_neg hne]
    rw [ih h.2]

theorem getD_set_ne {l : List Int} {i j : Nat} {v d : Int} (hne : j ≠ i) :
    (l.set i v).getD j d = l.getD j d := by
  simp only [List.getD_eq_getElem?_getD]
  rw [List.getElem?_set_ne (fun h => hne h.symm)]

theorem getD_set_self {l : List Int} {i : Nat} {v d : Int}
    (hi : i < l.length) : (l.set i v).getD i d = v := by
  simp only [List.getD_eq_getElem?_getD]
  rw [List.getElem?_set_self (by simpa using hi)]
  rfl

theorem sum_set {l : List Int} :
    ∀ {i : Nat} {w v : Int}, l[i]? = some w → (l.set i v).sum = l.sum - w + v := by
  induction l with
  | nil => intro i w v h; simp at h
  | cons a rest ih =>
    intro i w v h
    cases i with
    | zero =>
      simp only [List.getElem?_cons_zero, Option.some.injEq] at h
      simp [List.set, h]
      omega
    | succ i =>
      simp only [List.getElem?_cons_succ] at h
      simp only [List.set, List.sum_cons, ih h]
      omega

/-! ## Helper lemmas: the adjustable set -/

theorem mkAdjustable_eq_filter {widths : List Int} :
    ∀ {specs adj : List (Nat × ColumnSpec)},
      mkAdjustable widths specs = some adj →
      adj = specs.filter (isAdjustable widths) := by
  intro specs
  induction specs with
  | nil =>
    intro adj h
    simp only [mkAdjustable, Option.some.injEq] at h
    simp [← h]
  | cons p rest ih =>
    intro adj h
    simp only [mkAdjustable] at h
    split at h
    · rename_i hflex
      split at h
      · exact Option.noConfusion h
      · rename_i w hw
        split at h
        · exact Option.noConfusion h
        · rename_i adj' hadj'
          simp only [Option.some.injEq] at h
          rw [List.filter_cons]
          by_cases hlt : p.2.WidthMin < w
          · have hf : isAdjustable widths p = true := by
              simp [isAdjustable, hflex, hw, hlt]
            rw [if_pos hf, ← ih hadj', ← h, if_pos hlt]
          · have hf : ¬(isAdjustable widths p = true) := by
              simp [isAdjustable, hflex, hw, hlt]
            rw [if_neg hf, ← ih hadj', ← h, if_neg hlt]
    · rename_i hflex
      have hf : ¬(isAdjustable widths p = true) := by
        simp only [isAdjustable, Bool.and_eq_true]
        exact fun hc => hflex hc.1
      rw [List.filter_cons, if_neg hf]
      exact ih h

theorem mkAdjustable_some {widths : List Int} :
    ∀ {specs : List (Nat × ColumnSpec)},
      (∀ p ∈ specs, p.2.HasFlexibleWidth = true → p.1 < widths.length) →
      mkAdjustable widths specs = some (specs.filter (isAdjustable widths)) := by
  intro specs
  induction specs with
  | nil => intro _; simp [mkAdjustable]
  | cons p rest ih =>
    intro hin
    have hrest := ih (fun q hq => hin q (List.mem_cons_of_mem p hq))
    simp only [mkAdjustable]
    split
    · rename_i hflex
      have hlt : p.1 < widths.length := hin p (List.mem_cons_self p rest) hflex
      have hw : widths[p.1]? = some widths[p.1] := List.getElem?_eq_getElem hlt
      simp only [hw, hrest]
      rw [List.filter_cons]
      by_cases hgt : p.2.WidthMin < widths[p.1]
      · have hf : isAdjustable widths p = true := by
          simp [isAdjustable, hflex, hw, hgt]
        rw [if_pos hgt, if_pos hf]
      · have hf : ¬(isAdjustable widths p = true) := by
          simp [isAdjustable, hflex, hw, hgt]
        rw [if_neg hgt, if_neg hf]
    · rename_i hflex
      have hf : ¬(isAdjustable widths p = true) := by
        simp only [isAdjustable, Bool.and_eq_true]
        exact fun hc => hflex hc.1
      rw [List.filter_cons, if_neg hf]
      exact hrest

theorem mkAdjustable_none_oob {widths : List Int} {q : Nat × ColumnSpec} :
    ∀ {specs : List (Nat × ColumnSpec)}, q ∈ specs →
      q.2.HasFlexibleWidth = true → widths.length ≤ q.1 →
      mkAdjustable widths specs = none := by
  intro specs
  induction specs with
  | nil => intro hq; exact absurd hq (by simp)
  | cons p rest ih =>
    intro hq hflex hoob
    rcases List.mem_cons.1 hq with rfl | hq'
    · simp only [mkAdjustable, if_pos hflex]
      rw [List.getElem?_eq_none (by omega)]
    · simp only [mkAdjustable]
      split
      · split
        · rfl
        · rw [ih hq' hflex hoob]
      · exact ih hq' hflex hoob

theorem mkAdjustable_some_inbounds {widths : List Int}
    {specs adj : List (Nat × ColumnSpec)}
    (h : mkAdjustable widths specs = some adj) :
    ∀ p ∈ specs, p.2.HasFlexibleWidth = true → p.1 < widths.length := by
  intro p hp hflex
  by_contra hge
  rw [mkAdjustable_none_oob hp hflex (by omega)] at h
  exact Option.noConfusion h

theorem mkAdjustable_inv {widths : List Int}
    {specs adj : List (Nat × ColumnSpec)}
    (h : mkAdjustable widths specs = some adj) :
    ∀ p ∈ adj, ∃ w, widths[p.1]? = some w ∧ p.2.WidthMin < w := by
  intro p hp
  rw [mkAdjustable_eq_filter h] at hp
  have hf := (List.mem_filter.1 hp).2
  simp only [isAdjustable, Bool.and_eq_true] at hf
  cases hw : widths[p.1]? with
  | none => rw [hw] at hf; exact absurd hf.2 (by simp)
  | some w =>
    rw [hw] at hf
    exact ⟨w, rfl, by simpa using hf.2⟩

theorem mkAdjustable_keysNodup {widths : List Int}
    {specs adj : List (Nat × ColumnSpec)}
    (h : mkAdjustable widths specs = some adj)
    (hk : (specs.map Prod.fst).Nodup) : (adj.map Prod.fst).Nodup := by
  rw [mkAdjustable_eq_filter h]
  exact hk.sublist ((List.filter_sublist specs).map Prod.fst)

theorem mkAdjustable_not_key {widths : List Int}
    {specs adj : List (Nat × ColumnSpec)}
    (h : mkAdjustable widths specs = some adj) {j : Nat}
    (hj : lookupIdx j specs = none) : lookupIdx j adj = none := by
  rw [lookupIdx_eq_none] at hj ⊢
  intro hmem
  obtain ⟨q, hq, hq1⟩ := List.mem_map.1 hmem
  rw [mkAdjustable_eq_filter h] at hq
  exact hj (List.mem_map.2 ⟨q, (List.mem_filter.1 hq).1, hq1⟩)

/-! ## Helper lemmas: the slack sum -/

theorem getD_eq_of_getElem? {l : List Int} {i : Nat} {w d : Int}
    (h : l[i]? = some w) : l.getD i d = w := by
  simp [List.getD_eq_getElem?_getD, h]

theorem slackSum_nil (widths : List Int) : slackSum widths [] = 0 := by
  simp [slackSum]

theorem slackSum_cons (widths : List Int) (p : Nat × ColumnSpec)
    (rest : List (Nat × ColumnSpec)) :
    slackSum widths (p :: rest) =
      (widths.getD p.1 0 - p.2.WidthMin) + slackSum widths rest := by
  simp [slackSum]

theorem slackSum_nonneg {widths : List Int} :
    ∀ {adj : List (Nat × ColumnSpec)},
      (∀ p ∈ adj, ∃ w, widths[p.1]? = some w ∧ p.2.WidthMin < w) →
      0 ≤ slackSum widths adj := by
  intro adj
  induction adj with
  | nil => intro _; rw [slackSum_nil]
  | cons p rest ih =>
    intro hInv
    obtain ⟨w, hw, hlt⟩ := hInv p (List.mem_cons_self p rest)
    have hrest := ih (fun q hq => hInv q (List.mem_cons_of_mem p hq))
    rw [slackSum_cons, getD_eq_of_getElem? hw]
    omega

theorem slackSum_set_not_key {widths : List Int} {i : Nat} {v : Int} :
    ∀ {adj : List (Nat × ColumnSpec)}, i ∉ adj.map Prod.fst →
      slackSum (widths.set i v) adj = slackSum widths adj := by
  intro adj
  induction adj with
  | nil => intro _; rw [slackSum_nil, slackSum_nil]
  | cons p rest ih =>
    intro h
    simp only [List.map_cons, List.mem_cons] at h
    push_neg at h
    rw [slackSum_cons, slackSum_cons, getD_set_ne (fun hc => h.1 hc.symm),
      ih h.2]

theorem slackSum_set_key {widths : List Int} {i : Nat} {v w : Int} :
    ∀ {adj : List (Nat × ColumnSpec)}, (adj.map Prod.fst).Nodup →
      i ∈ adj.map Prod.fst → widths[i]? = some w →
      slackSum (widths.set i v) adj = slackSum widths adj - w + v := by
  intro adj
  induction adj with
  | nil => intro _ hk; exact absurd hk (by simp)
  | cons p rest ih =>
    intro hnd hk hw
    simp only [List.map_cons, List.nodup_cons] at hnd
    rcases List.mem_cons.1 hk with heq | hk'
    · subst heq
      have hlen : p.1 < widths.length := by
        have := List.getElem?_eq_some_iff.1 hw
        exact this.1
      rw [slackSum_cons, slackSum_cons, getD_set_self hlen,
        slackSum_set_not_key hnd.1, getD_eq_of_getElem? hw]
      omega
    · have hne : p.1 ≠ i := fun hc => hnd.1 (hc ▸ hk')
      rw [slackSum_cons, slackSum_cons, getD_set_ne hne, ih hnd.2 hk' hw]
      omega

theorem slackSum_eraseKey {widths : List Int} {i : Nat} {spec : ColumnSpec} :
    ∀ {adj : List (Nat × ColumnSpec)}, (adj.map Prod.fst).Nodup →
      (i, spec) ∈ adj →
      slackSum widths (eraseKey i adj) =
        slackSum widths adj - (widths.getD i 0 - spec.WidthMin) := by
  intro adj
  induction adj with
  | nil => intro _ hk; exact absurd hk (by simp)
  | cons p rest ih =>
    intro hnd hmem
    obtain ⟨p1, p2⟩ := p
    simp only [List.map_cons, List.nodup_cons] at hnd
    by_cases hpi : p1 = i
    · subst hpi
      have hpspec : p2 = spec := by
        rcases List.mem_cons.1 hmem with h0 | h1
        · exact (congrArg Prod.snd h0).symm
        · exact absurd (List.mem_map_of_mem Prod.fst h1) (by simpa using hnd.1)
      subst hpspec
      have herase : eraseKey p1 ((p1, p2) :: rest) = eraseKey p1 rest := by
        simp [eraseKey]
      rw [herase, eraseKey_of_not_key (by simpa using hnd.1), slackSum_cons]
      simp only []
      omega
    · have hmem' : (i, spec) ∈ rest := by
        rcases List.mem_cons.1 hmem with h0 | h1
        · exact absurd (congrArg Prod.fst h0.symm) hpi
        · exact h1
      have herase : eraseKey i ((p1, p2) :: rest) = (p1, p2) :: eraseKey i rest := by
        simp [eraseKey, hpi]
      rw [herase, slackSum_cons, slackSum_cons, ih hnd.2 hmem']
      omega

/-! ## Helper lemmas: one trip of the shrink loop -/

theorem shrinkStep_spec {widths : List Int} {adj : List (Nat × ColumnSpec)}
    {widths' : List Int} {adj' : List (Nat × ColumnSpec)}
    (h : shrinkStep widths adj = some (widths', adj')) :
    ∃ wi w spec, lookupIdx wi adj = some spec ∧ widths[wi]? = some w ∧
      widths' = widths.set wi (w - 1) ∧
      adj' = if w - 1 ≤ spec.WidthMin then eraseKey wi adj else adj := by
  simp only [shrinkStep] at h
  split at h
  · exact Option.noConfusion h
  · rename_i wi ww hfind
    split at h
    · exact Option.noConfusion h
    · rename_i w hw
      split at h
      · exact Option.noConfusion h
      · rename_i spec hlook
        simp only [Option.some.injEq, Prod.mk.injEq] at h
        exact ⟨wi, w, spec, hlook, hw, h.1.symm, h.2.symm⟩

theorem shrinkStep_nodup {widths : List Int} {adj : List (Nat × ColumnSpec)}
    {widths' : List Int} {adj' : List (Nat × ColumnSpec)}
    (h : shrinkStep widths adj = some (widths', adj'))
    (hk : (adj.map Prod.fst).Nodup) : (adj'.map Prod.fst).Nodup := by
  obtain ⟨wi, w, spec, _, _, _, hA⟩ := shrinkStep_spec h
  subst hA
  split
  · exact eraseKey_keysNodup hk
  · exact hk

theorem shrinkStep_inv {widths : List Int} {adj : List (Nat × ColumnSpec)}
    {widths' : List Int} {adj' : List (Nat × ColumnSpec)}
    (h : shrinkStep widths adj = some (widths', adj'))
    (hk : (adj.map Prod.fst).Nodup)
    (hInv : ∀ p ∈ adj, ∃ w, widths[p.1]? = some w ∧ p.2.WidthMin < w) :
    ∀ p ∈ adj', ∃ w, widths'[p.1]? = some w ∧ p.2.WidthMin < w := by
  obtain ⟨wi, w, spec, hlook, hw, hW, hA⟩ := shrinkStep_spec h
  subst hW hA
  intro p hp
  by_cases herase : w - 1 ≤ spec.WidthMin
  · rw [if_pos herase] at hp
    have hmem := mem_eraseKey.1 hp
    obtain ⟨w₀, hw₀, hlt₀⟩ := hInv p hmem.1
    exact ⟨w₀, by rw [List.getElem?_set_ne (fun hc => hmem.2 hc.symm)]; exact hw₀, hlt₀⟩
  · rw [if_neg herase] at hp
    by_cases hpwi : p.1 = wi
    · have hlookp : lookupIdx p.1 adj = some p.2 := lookupIdx_of_mem hk hp
      rw [hpwi, hlook] at hlookp
      have hpspec : p.2 = spec := by
        simpa using hlookp.symm
      have hwi : wi < widths.length := (List.getElem?_eq_some_iff.1 hw).1
      refine ⟨w - 1, ?_, ?_⟩
      · rw [hpwi, List.getElem?_set_self (by simpa using hwi)]
      · rw [hpspec]; omega
    · obtain ⟨w₀, hw₀, hlt₀⟩ := hInv p hp
      exact ⟨w₀, by rw [List.getElem?_set_ne (fun hc => hpwi hc.symm)]; exact hw₀, hlt₀⟩

theorem shrinkStep_slack {widths : List Int} {adj : List (Nat × ColumnSpec)}
    {widths' : List Int} {adj' : List (Nat × ColumnSpec)}
    (h : shrinkStep widths adj = some (widths', adj'))
    (hk : (adj.map Prod.fst).Nodup)
    (hInv : ∀ p ∈ adj, ∃ w, widths[p.1]? = some w ∧ p.2.WidthMin < w) :
    slackSum widths' adj' = slackSum widths adj - 1 := by
  obtain ⟨wi, w, spec, hlook, hw, hW, hA⟩ := shrinkStep_spec h
  subst hW hA
  have hkey : wi ∈ adj.map Prod.fst :=
    List.mem_map_of_mem Prod.fst (lookupIdx_mem hlook)
  have hset : slackSum (widths.set wi (w - 1)) adj =
      slackSum widths adj - w + (w - 1) := slackSum_set_key hk hkey hw
  by_cases herase : w - 1 ≤ spec.WidthMin
  · rw [if_pos herase]
    obtain ⟨w₀, hw₀, hlt₀⟩ := hInv (wi, spec) (lookupIdx_mem hlook)
    have hw₀w : w₀ = w := by
      rw [hw] at hw₀
      simpa using hw₀.symm
    have hwi : wi < widths.length := (List.getElem?_eq_some_iff.1 hw).1
    rw [slackSum_eraseKey hk (lookupIdx_mem hlook), hset,
      getD_set_self hwi]
    simp only at hlt₀
    omega
  · rw [if_neg herase, hset]
    omega

/-! ## Helper lemmas: the shrink loop -/

theorem shrinkLoop_length {avail : Int} :
    ∀ (fuel : Nat) {widths : List Int} {adj : List (Nat × ColumnSpec)}
      {consumed : Int} {out : List Int} {n : Nat},
      shrinkLoop avail fuel widths adj consumed = some (out, n) →
      out.length = widths.length := by
  intro fuel
  induction fuel with
  | zero =>
    intro widths adj consumed out n h
    simp only [shrinkLoop, Option.some.injEq, Prod.mk.injEq] at h
    rw [← h.1]
  | succ fuel ih =>
    intro widths adj consumed out n h
    simp only [shrinkLoop] at h
    split at h
    · split at h
      · exact Option.noConfusion h
      · rename_i widths' adj' hstep
        split at h
        · exact Option.noConfusion h
        · rename_i out' n' hrec
          simp only [Option.some.injEq, Prod.mk.injEq] at h
          obtain ⟨wi, w, spec, _, _, hW, _⟩ := shrinkStep_spec hstep
          have := ih hrec
          rw [← h.1, this, hW, List.length_set]
    · simp only [Option.some.injEq, Prod.mk.injEq] at h
      rw [← h.1]

theorem shrinkLoop_untouched {avail : Int} :
    ∀ (fuel : Nat) {widths : List Int} {adj : List (Nat × ColumnSpec)}
      {consumed : Int} {out : List Int} {n : Nat},
      shrinkLoop avail fuel widths adj consumed = some (out, n) →
      ∀ j, lookupIdx j adj = none → out[j]? = widths[j]? := by
  intro fuel
  induction fuel with
  | zero =>
    intro widths adj consumed out n h j _
    simp only [shrinkLoop, Option.some.injEq, Prod.mk.injEq] at h
    rw [← h.1]
  | succ fuel ih =>
    intro widths adj consumed out n h j hj
    simp only [shrinkLoop] at h
    split at h
    · split at h
      · exact Option.noConfusion h
      · rename_i widths' adj' hstep
        split at h
        · exact Option.noConfusion h
        · rename_i out' n' hrec
          simp only [Option.some.injEq, Prod.mk.injEq] at h
          obtain ⟨wi, w, spec, hlook, hw, hW, hA⟩ := shrinkStep_spec hstep
          have hjwi : j ≠ wi := by
            intro hc
            rw [hc, hlook] at hj
            exact Option.noConfusion hj
          have hj' : lookupIdx j adj' = none := by
            rw [hA]
            split
            · rw [lookupIdx_eraseKey_ne hjwi]
              exact hj
            · exact hj
          have hset : widths'[j]? = widths[j]? := by
            rw [hW, List.getElem?_set_ne (fun hc => hjwi hc.symm)]
          rw [← h.1, ih hrec j hj', hset]
    · simp only [Option.some.injEq, Prod.mk.injEq] at h
      rw [← h.1]

theorem shrinkLoop_sum {avail : Int} :
    ∀ (fuel : Nat) {widths : List Int} {adj : List (Nat × ColumnSpec)}
      {consumed : Int} {out : List Int} {n : Nat},
      shrinkLoop avail fuel widths adj consumed = some (out, n) →
      out.sum = widths.sum - n := by
  intro fuel
  induction fuel with
  | zero =>
    intro widths adj consumed out n h
    simp only [shrinkLoop, Option.some.injEq, Prod.mk.injEq] at h
    rw [← h.1, ← h.2]
    simp
  | succ fuel ih =>
    intro widths adj consumed out n h
    simp only [shrinkLoop] at h
    split at h
    · split at h
      · exact Option.noConfusion h
      · rename_i widths' adj' hstep
        split at h
        · exact Option.noConfusion h
        · rename_i out' n' hrec
          simp only [Option.some.injEq, Prod.mk.injEq] at h
          obtain ⟨wi, w, spec, hlook, hw, hW, hA⟩ := shrinkStep_spec hstep
          have hsum' : widths'.sum = widths.sum - 1 := by
            rw [hW, sum_set hw]
            omega
          have := ih hrec
          rw [← h.1, ← h.2, this, hsum']
          push_cast
          omega
    · simp only [Option.some.injEq, Prod.mk.injEq] at h
      rw [← h.1, ← h.2]
      simp

theorem shrinkLoop_floor {avail : Int} :
    ∀ (fuel : Nat) {widths : List Int} {adj : List (Nat × ColumnSpec)}
      {consumed : Int} {out : List Int} {n : Nat},
      (adj.map Prod.fst).Nodup →
      (∀ p ∈ adj, ∃ w, widths[p.1]? = some w ∧ p.2.WidthMin < w) →
      shrinkLoop avail fuel widths adj consumed = some (out, n) →
      ∀ p ∈ adj, ∀ v, out[p.1]? = some v → p.2.WidthMin ≤ v := by
  intro fuel
  induction fuel with
  | zero =>
    intro widths adj consumed out n hk hInv h p hp v hv
    simp only [shrinkLoop, Option.some.injEq, Prod.mk.injEq] at h
    obtain ⟨w, hw, hlt⟩ := hInv p hp
    rw [← h.1, hw] at hv
    simp only [Option.some.injEq] at hv
    omega
  | succ fuel ih =>
    intro widths adj consumed out n hk hInv h p hp v hv
    simp only [shrinkLoop] at h
    split at h
    · split at h
      · exact Option.noConfusion h
      · rename_i widths' adj' hstep
        split at h
        · exact Option.noConfusion h
        · rename_i out' n' hrec
          simp only [Option.some.injEq, Prod.mk.injEq] at h
          obtain ⟨wi, w, spec, hlook, hw, hW, hA⟩ := shrinkStep_spec hstep
          have hk' := shrinkStep_nodup hstep hk
          have hInv' := shrinkStep_inv hstep hk hInv
          have hout : out'[p.1]? = some v := by rw [h.1]; exact hv
          by_cases hpwi : p.1 = wi
          · have hlookp : lookupIdx p.1 adj = some p.2 := lookupIdx_of_mem hk hp
            rw [hpwi, hlook] at hlookp
            have hpspec : p.2 = spec := by simpa using hlookp.symm
            obtain ⟨w₀, hw₀, hlt₀⟩ := hInv p hp
            have hw₀w : w₀ = w := by
              rw [hpwi, hw] at hw₀
              simpa using hw₀.symm
            by_cases herase : w - 1 ≤ spec.WidthMin
            · have hAe : adj' = eraseKey wi adj := by rw [hA, if_pos herase]
              have hnokey : lookupIdx p.1 adj' = none := by
                rw [hAe, hpwi]
                exact lookupIdx_eraseKey_self
              have := shrinkLoop_untouched fuel hrec p.1 hnokey
              rw [this] at hout
              have hwi : wi < widths.length := (List.getElem?_eq_some_iff.1 hw).1
              rw [hW, hpwi, List.getElem?_set_self (by simpa using hwi)] at hout
              simp only [Option.some.injEq] at hout
              rw [hpspec] at hlt₀ ⊢
              omega
            · have hAe : adj' = adj := by rw [hA, if_neg herase]
              exact ih hk' hInv' hrec p (hAe ▸ hp) v hout
          · have hp' : p ∈ adj' := by
              rw [hA]
              split
              · exact mem_eraseKey.2 ⟨hp, hpwi⟩
              · exact hp
            exact ih hk' hInv' hrec p hp' v hout
    · simp only [Option.some.injEq, Prod.mk.injEq] at h
      obtain ⟨w, hw, hlt⟩ := hInv p hp
      rw [← h.1, hw] at hv
      simp only [Option.some.injEq] at hv
      omega

theorem shrinkLoop_count {avail : Int} :
    ∀ (fuel : Nat) {widths : List Int} {adj : List (Nat × ColumnSpec)}
      {consumed : Int} {out : List Int} {n : Nat},
      (adj.map Prod.fst).Nodup →
      (∀ p ∈ adj, ∃ w, widths[p.1]? = some w ∧ p.2.WidthMin < w) →
      shrinkLoop avail fuel widths adj consumed = some (out, n) →
      (n : Int) ≤ slackSum widths adj := by
  intro fuel
  induction fuel with
  | zero =>
    intro widths adj consumed out n hk hInv h
    simp only [shrinkLoop, Option.some.injEq, Prod.mk.injEq] at h
    rw [← h.2]
    simpa using slackSum_nonneg hInv
  | succ fuel ih =>
    intro widths adj consumed out n hk hInv h
    simp only [shrinkLoop] at h
    split at h
    · split at h
      · exact Option.noConfusion h
      · rename_i widths' adj' hstep
        split at h
        · exact Option.noConfusion h
        · rename_i out' n' hrec
          simp only [Option.some.injEq, Prod.mk.injEq] at h
          have hk' := shrinkStep_nodup hstep hk
          have hInv' := shrinkStep_inv hstep hk hInv
          have hslack := shrinkStep_slack hstep hk hInv
          have := ih hk' hInv' hrec
          rw [hslack] at this
          rw [← h.2]
          push_cast
          omega
    · simp only [Option.some.injEq, Prod.mk.injEq] at h
      rw [← h.2]
      simpa using slackSum_nonneg hInv

theorem shrinkLoop_exit {avail : Int} :
    ∀ (fuel : Nat) {widths : List Int} {adj : List (Nat × ColumnSpec)}
      {consumed : Int} {out : List Int} {n : Nat},
      (adj.map Prod.fst).Nodup →
      fuel = (consumed - avail).toNat →
      shrinkLoop avail fuel widths adj consumed = some (out, n) →
      (consumed - n ≤ avail) ∨
        (∀ p ∈ adj, ∀ v, out[p.1]? = some v → v ≤ p.2.WidthMin) := by
  intro fuel
  induction fuel with
  | zero =>
    intro widths adj consumed out n hk hfuel h
    simp only [shrinkLoop, Option.some.injEq, Prod.mk.injEq] at h
    left
    rw [← h.2]
    omega
  | succ fuel ih =>
    intro widths adj consumed out n hk hfuel h
    simp only [shrinkLoop] at h
    split at h
    · rename_i hguard
      split at h
      · exact Option.noConfusion h
      · rename_i widths' adj' hstep
        split at h
        · exact Option.noConfusion h
        · rename_i out' n' hrec
          simp only [Option.some.injEq, Prod.mk.injEq] at h
          obtain ⟨wi, w, spec, hlook, hw, hW, hA⟩ := shrinkStep_spec hstep
          have hk' := shrinkStep_nodup hstep hk
          have hfuel' : fuel = (consumed - 1 - avail).toNat := by omega
          rcases ih hk' hfuel' hrec with hleft | hright
          · left
            rw [← h.2]
            push_cast
            omega
          · right
            intro p hp v hv
            have hout : out'[p.1]? = some v := by rw [h.1]; exact hv
            by_cases hpwi : p.1 = wi
            · have hlookp : lookupIdx p.1 adj = some p.2 := lookupIdx_of_mem hk hp
              rw [hpwi, hlook] at hlookp
              have hpspec : p.2 = spec := by simpa using hlookp.symm
              by_cases herase : w - 1 ≤ spec.WidthMin
              · have hAe : adj' = eraseKey wi adj := by rw [hA, if_pos herase]
                have hnokey : lookupIdx p.1 adj' = none := by
                  rw [hAe, hpwi]
                  exact lookupIdx_eraseKey_self
                have := shrinkLoop_untouched fuel hrec p.1 hnokey
                rw [this] at hout
                have hwi : wi < widths.length := (List.getElem?_eq_some_iff.1 hw).1
                rw [hW, hpwi, List.getElem?_set_self (by simpa using hwi)] at hout
                simp only [Option.some.injEq] at hout
                rw [hpspec]
                omega
              · have hAe : adj' = adj := by rw [hA, if_neg herase]
                exact hright p (hAe ▸ hp) v hout
            · have hp' : p ∈ adj' := by
                rw [hA]
                split
                · exact mem_eraseKey.2 ⟨hp, hpwi⟩
                · exact hp
              exact hright p hp' v hout
    · rename_i hguard
      simp only [Option.some.injEq, Prod.mk.injEq] at h
      rw [Classical.not_and_iff_or_not_not] at hguard
      rcases hguard with hc | hadj
      · left
        rw [← h.2]
        push_cast
        omega
      · right
        intro p hp
        rw [Classical.not_not] at hadj
        rw [hadj] at hp
        exact absurd hp (by simp)

theorem shrinkLoop_nil {avail : Int} (fuel : Nat) (widths : List Int)
    (consumed : Int) :
    shrinkLoop avail fuel widths [] consumed = some (widths, 0) := by
  cases fuel with
  | zero => rfl
  | succ fuel => simp [shrinkLoop]

theorem notin_adj_nokey {widths : List Int}
    {specs adj : List (Nat × ColumnSpec)}
    (hk : (specs.map Prod.fst).Nodup)
    (hadj : mkAdjustable widths specs = some adj) {p : Nat × ColumnSpec}
    (hp : p ∈ specs) (hpn : p ∉ adj) : lookupIdx p.1 adj = none := by
  cases hcase : lookupIdx p.1 adj with
  | none => rfl
  | some s =>
    have hmem' := lookupIdx_mem hcase
    rw [mkAdjustable_eq_filter hadj] at hmem'
    have hins : (p.1, s) ∈ specs := (List.mem_filter.1 hmem').1
    have hs : s = p.2 := nodup_key_unique hk hins hp
    rw [hs] at hmem'
    exact absurd (by rw [mkAdjustable_eq_filter hadj]; simpa using hmem') hpn

/-! ## Claim theorems: the rebalancer -/

/-- **C1 counterexample**: a specced flexible column whose input width is
already below its `widthMin` is left untouched by `rebalanceWidths`, so
the output width stays below `widthMin`, contradicting the claim that
every specced column ends at `widthMin` or above. -/
theorem rebalance_floor_counterexample :
    rebalanceWidths [0] [(0, ⟨ColumnType.TypeString, 5, -1⟩)] 100 =
      some [0] ∧ ¬((5 : Int) ≤ 0) :=
  ⟨by decide, by decide⟩

/-- **C1 amended**: whenever `rebalanceWidths` returns (does not panic),
it never *reduces* a specced column below its `widthMin` (the output is
at least `min (input width) widthMin`), leaves every specced column whose
spec is not flexible (`widthMax ≥ 0` and `widthMax ≤ widthMin`, which
includes rigid `widthMin = widthMax ≥ 0` specs) exactly at its input
width, and leaves every column without a spec entry exactly at its input
width. -/
theorem rebalance_respects_floors (widths : List Int)
    (specs : List (Nat × ColumnSpec)) (avail : Int) (out : List Int)
    (hk : (specs.map Prod.fst).Nodup)
    (h : rebalanceWidths widths specs avail = some out) :
    out.length = widths.length ∧
    (∀ p ∈ specs, ∀ w v : Int, widths[p.1]? = some w → out[p.1]? = some v →
      min w p.2.WidthMin ≤ v) ∧
    (∀ p ∈ specs, p.2.HasFlexibleWidth = false → out[p.1]? = widths[p.1]?) ∧
    (∀ j : Nat, lookupIdx j specs = none → out[j]? = widths[j]?) := by
  simp only [rebalanceWidths] at h
  cases hadj : mkAdjustable widths specs with
  | none => simp [hadj] at h
  | some adj =>
  simp only [hadj] at h
  cases hloop : shrinkLoop avail ((consumedWidth widths - avail).toNat)
      widths adj (consumedWidth widths) with
  | none => simp [hloop] at h
  | some pr =>
  obtain ⟨out', n⟩ := pr
  simp only [hloop, Option.some.injEq] at h
  subst h
  have hkadj := mkAdjustable_keysNodup hadj hk
  have hInv := mkAdjustable_inv hadj
  refine ⟨shrinkLoop_length _ hloop, ?_, ?_, ?_⟩
  · intro p hp w v hw hv
    by_cases hmem : p ∈ adj
    · have := shrinkLoop_floor _ hkadj hInv hloop p hmem v hv
      exact le_trans (min_le_right w _) this
    · have hnokey := notin_adj_nokey hk hadj hp hmem
      have huntouched := shrinkLoop_untouched _ hloop p.1 hnokey
      rw [huntouched, hw] at hv
      simp only [Option.some.injEq] at hv
      rw [← hv]
      exact min_le_left w _
  · intro p hp hflex
    have hmem : p ∉ adj := by
      intro hmem
      rw [mkAdjustable_eq_filter hadj] at hmem
      have := (List.mem_filter.1 hmem).2
      simp only [isAdjustable, Bool.and_eq_true] at this
      rw [hflex] at this
      exact Bool.noConfusion this.1
    exact shrinkLoop_untouched _ hloop p.1 (notin_adj_nokey hk hadj hp hmem)
  · intro j hj
    exact shrinkLoop_untouched _ hloop j (mkAdjustable_not_key hadj hj)

/-- Witness for the amended C1 at a concrete rebalanced input. -/
theorem rebalance_respects_floors_witness :
    ([2, 3] : List Int).length = ([10, 3] : List Int).length ∧
    (∀ p ∈ [((0 : Nat), (⟨ColumnType.TypeString, 2, -1⟩ : ColumnSpec))],
      ∀ w v : Int, ([10, 3] : List Int)[p.1]? = some w →
        ([2, 3] : List Int)[p.1]? = some v → min w p.2.WidthMin ≤ v) ∧
    (∀ p ∈ [((0 : Nat), (⟨ColumnType.TypeString, 2, -1⟩ : ColumnSpec))],
      p.2.HasFlexibleWidth = false →
      ([2, 3] : List Int)[p.1]? = ([10, 3] : List Int)[p.1]?) ∧
    (∀ j : Nat,
      lookupIdx j [((0 : Nat), (⟨ColumnType.TypeString, 2, -1⟩ : ColumnSpec))] = none →
      ([2, 3] : List Int)[j]? = ([10, 3] : List Int)[j]?) :=
  rebalance_respects_floors [10, 3]
    [((0 : Nat), (⟨ColumnType.TypeString, 2, -1⟩ : ColumnSpec))] 5 [2, 3]
    (by decide) (by decide)

/-- **C4 counterexample**: with a flexible spec at a column index beyond
the widths vector, `rebalanceWidths` faults while building the
adjustable set even though the budget already fits, so it does not
return the input widths. -/
theorem rebalance_noop_counterexample :
    consumedWidth [3] ≤ 100 ∧
    rebalanceWidths [3] [(1, ⟨ColumnType.TypeString, 0, -1⟩)] 100 = none :=
  ⟨by decide, by decide⟩

/-- **C4 amended**: if every flexible spec entry's column index is inside
the widths vector (so building the adjustable set does not fault) and the
budget is at least the consumed width, `rebalanceWidths` returns the
input widths unchanged. -/
theorem rebalance_noop_when_fits (widths : List Int)
    (specs : List (Nat × ColumnSpec)) (avail : Int)
    (hflex : ∀ p ∈ specs, p.2.HasFlexibleWidth = true → p.1 < widths.length)
    (hfits : consumedWidth widths ≤ avail) :
    rebalanceWidths widths specs avail = some widths := by
  have hadj := @mkAdjustable_some widths specs hflex
  have hfuel : (consumedWidth widths - avail).toNat = 0 := by omega
  simp only [rebalanceWidths, hadj, hfuel, shrinkLoop]

/-- Witness for the amended C4 at a concrete fitting input. -/
theorem rebalance_noop_when_fits_witness :
    rebalanceWidths [4, 10] [(1, ⟨ColumnType.TypeString, 3, -1⟩)] 100 =
      some [4, 10] :=
  rebalance_noop_when_fits [4, 10] [(1, ⟨ColumnType.TypeString, 3, -1⟩)] 100
    (by decide) (by decide)

/-- **C5**: rebalancing is idempotent: whenever `rebalanceWidths`
produces an output, rebalancing that output with the same spec mapping
and the same budget returns it unchanged. -/
theorem rebalance_idempotent (widths : List Int)
    (specs : List (Nat × ColumnSpec)) (avail : Int) (out : List Int)
    (hk : (specs.map Prod.fst).Nodup)
    (h : rebalanceWidths widths specs avail = some out) :
    rebalanceWidths out specs avail = some out := by
  simp only [rebalanceWidths] at h
  cases hadj : mkAdjustable widths specs with
  | none => simp [hadj] at h
  | some adj =>
  simp only [hadj] at h
  cases hloop : shrinkLoop avail ((consumedWidth widths - avail).toNat)
      widths adj (consumedWidth widths) with
  | none => simp [hloop] at h
  | some pr =>
  obtain ⟨out', n⟩ := pr
  simp only [hloop, Option.some.injEq] at h
  subst h
  have hlen : out'.length = widths.length := shrinkLoop_length _ hloop
  have hsum : out'.sum = widths.sum - n := shrinkLoop_sum _ hloop
  have hcons : consumedWidth out' = consumedWidth widths - n := by
    simp only [consumedWidth, hlen, hsum]
    omega
  have hkadj := mkAdjustable_keysNodup hadj hk
  have hadj2 : mkAdjustable out' specs =
      some (specs.filter (isAdjustable out')) :=
    mkAdjustable_some (fun p hp hf => by
      rw [hlen]
      exact mkAdjustable_some_inbounds hadj p hp hf)
  rcases shrinkLoop_exit _ hkadj rfl hloop with hle | hmin
  · have hfuel2 : (consumedWidth out' - avail).toNat = 0 := by omega
    simp only [rebalanceWidths, hadj2, hfuel2, shrinkLoop]
  · have hempty : specs.filter (isAdjustable out') = [] := by
      rw [List.filter_eq_nil_iff]
      intro p hp
      simp only [isAdjustable, Bool.and_eq_true, not_and]
      intro hflex
      have hpl : p.1 < widths.length :=
        mkAdjustable_some_inbounds hadj p hp hflex
      have houtp : out'[p.1]? = some out'[p.1] :=
        List.getElem?_eq_getElem (by omega)
      rw [houtp]
      by_cases hinadj : p ∈ adj
      · have := hmin p hinadj out'[p.1] houtp
        simp only [decide_eq_true_eq]
        omega
      · have hnokey := notin_adj_nokey hk hadj hp hinadj
        have huntouched := shrinkLoop_untouched _ hloop p.1 hnokey
        have hnf : ¬(isAdjustable widths p = true) := by
          intro hc
          exact hinadj (by
            rw [mkAdjustable_eq_filter hadj]
            exact List.mem_filter.2 ⟨hp, hc⟩)
        simp only [isAdjustable, Bool.and_eq_true, not_and, hflex,
          forall_const] at hnf
        have hw : widths[p.1]? = some widths[p.1] :=
          List.getElem?_eq_getElem hpl
        rw [hw] at hnf
        have hval : out'[p.1] = widths[p.1] := by
          rw [huntouched, hw] at houtp
          simpa using houtp.symm
        rw [hval]
        exact hnf
    rw [hempty] at hadj2
    simp only [rebalanceWidths, hadj2, shrinkLoop_nil]

/-- Witness for C5 at a concrete shrinking run. -/
theorem rebalance_idempotent_witness :
    rebalanceWidths [2, 3] [(0, ⟨ColumnType.TypeString, 2, -1⟩)] 5 =
      some [2, 3] :=
  rebalance_idempotent [10, 3] [(0, ⟨ColumnType.TypeString, 2, -1⟩)] 5 [2, 3]
    (by decide) (by decide)

/-- **C6**: for any fuel budget and any consumed-width accumulator, the
shrink loop started from the adjustable set of `rebalanceWidths` performs
at most `slackSum widths adj` trips — the sum of `width - widthMin` over
the initially adjustable columns — before stopping; in particular the
loop terminates within that many iterations. -/
theorem shrink_loop_iteration_bound (widths : List Int)
    (specs adj : List (Nat × ColumnSpec)) (avail consumed : Int)
    (fuel : Nat) (out : List Int) (n : Nat)
    (hk : (specs.map Prod.fst).Nodup)
    (hadj : mkAdjustable widths specs = some adj)
    (h : shrinkLoop avail fuel widths adj consumed = some (out, n)) :
    (n : Int) ≤ slackSum widths adj :=
  shrinkLoop_count fuel (mkAdjustable_keysNodup hadj hk)
    (mkAdjustable_inv hadj) h

/-- Witness for C6 at a concrete run: 8 trips against a slack of 8. -/
theorem shrink_loop_iteration_bound_witness :
    ((8 : Nat) : Int) ≤
      slackSum [10, 3] [(0, ⟨ColumnType.TypeString, 2, -1⟩)] :=
  shrink_loop_iteration_bound [10, 3]
    [(0, ⟨ColumnType.TypeString, 2, -1⟩)]
    [(0, ⟨ColumnType.TypeString, 2, -1⟩)] 5 (consumedWidth [10, 3]) 20
    [2, 3] 8 (by decide) (by decide) (by decide)

/-- **C9 counterexample**: a spec entry at column 5 with the zero-valued
(default, rigid) spec and only two columns of widths does not make
`rebalanceWidths` fault: Go's `&&` short-circuits before the
out-of-range `widths[i]` access, so the run succeeds. -/
theorem oob_rigid_spec_counterexample :
    rebalanceWidths [1, 1] [(5, zeroSpec)] 0 = some [1, 1] ∧
    ([1, 1] : List Int).length ≤ 5 :=
  ⟨by decide, by decide⟩

/-- **C9 amended**: if the spec mapping contains an entry whose column
index is at least the widths vector's length *and whose spec is
flexible*, then `rebalanceWidths` faults (`none`) while building the
adjustable set; for a non-flexible out-of-range entry the short-circuit
`&&` skips the `widths[i]` access, so such entries are silently ignored
just as the clamp pass ignores them. -/
theorem oob_flexible_spec_panics (widths : List Int)
    (specs : List (Nat × ColumnSpec)) (avail : Int) (p : Nat × ColumnSpec)
    (hp : p ∈ specs) (hflex : p.2.HasFlexibleWidth = true)
    (hoob : widths.length ≤ p.1) :
    rebalanceWidths widths specs avail = none := by
  simp only [rebalanceWidths, mkAdjustable_none_oob hp hflex hoob]

/-- Witness for the amended C9 at a concrete out-of-range flexible
spec. -/
theorem oob_flexible_spec_panics_witness :
    rebalanceWidths [7] [(2, ⟨ColumnType.TypeString, 1, -1⟩)] 42 = none :=
  oob_flexible_spec_panics [7] [(2, ⟨ColumnType.TypeString, 1, -1⟩)] 42
    (2, ⟨ColumnType.TypeString, 1, -1⟩) (by decide) (by decide) (by decide)
